import Mathlib

set_option maxHeartbeats 1000000

namespace DedalusReact

/-!
Verification development for the dedalus-react client engine.

The development shallowly embeds the algorithmic core of the repository:
the incremental SSE decoder (src/react/parse-sse-stream.ts), the tool-call
delta accumulator and round orchestrator (src/react/use-chat.ts), and the
observable conversation store (src/react/chat-state.ts).  JS strings are
modelled as `List Char` in the decoder (the text chunks produced by the
platform TextDecoderStream) and as `String` elsewhere; JS sparse arrays as
lists of `Option` values; the platform `JSON.parse` as an executable model
`jsonParse` restricted to the integer-number fragment of JSON.
-/

/-! ## SSE decoder (src/react/parse-sse-stream.ts) -/

/-- Model of `line.trim()`: drop whitespace from both ends. -/
def trimChars (l : List Char) : List Char :=
  ((l.dropWhile Char.isWhitespace).reverse.dropWhile Char.isWhitespace).reverse

/-- Auxiliary splitter for `buffer.split("\n")`: the first line (the segment
before the first newline) paired with the list of remaining segments. -/
def splitNLAux : List Char → List Char × List (List Char)
  | [] => ([], [])
  | c :: cs =>
    let r := splitNLAux cs
    if c = '\n' then ([], r.1 :: r.2) else (c :: r.1, r.2)

/-- Model of `buffer.split("\n")`: a non-empty list of newline-free segments;
the last segment is the carry-over remainder retained by the decoder. -/
def splitNL (s : List Char) : List (List Char) :=
  (splitNLAux s).1 :: (splitNLAux s).2

/-- The three possible effects of one complete line inside the decoder loop:
yield a parsed payload, silently skip, or terminate on a `[DONE]` marker. -/
inductive LineAction (J : Type) where
  | yield (j : J)
  | skip
  | terminate
deriving DecidableEq

/-- The `data: ` prefix checked by `trimmed.startsWith("data: ")`. -/
def dataTag : List Char := "data: ".toList

/-- The `[DONE]` termination marker. -/
def doneMarker : List Char := "[DONE]".toList

/-- The loop body of `parseSSEStream` for one complete line: trim, ignore
lines without the `data: ` prefix, terminate on `[DONE]`, otherwise parse
the payload (a failed parse is silently skipped). -/
def handleLine {J : Type} (parse : List Char → Option J) (line : List Char) :
    LineAction J :=
  let trimmed := trimChars line
  if dataTag.isPrefixOf trimmed then
    let data := trimmed.drop 6
    if data = doneMarker then .terminate
    else
      match parse data with
      | some j => .yield j
      | none => .skip
  else .skip

/-- Process the complete lines of one chunk in order; the Bool records
whether a `[DONE]` line made the generator return early. -/
def processLines {J : Type} (parse : List Char → Option J) :
    List (List Char) → List J × Bool
  | [] => ([], false)
  | l :: ls =>
    match handleLine parse l with
    | .terminate => ([], true)
    | .yield j =>
      let r := processLines parse ls
      (j :: r.1, r.2)
    | .skip => processLines parse ls

/-- The final flush of the carry-over buffer after the reader signals
completion (the `// Process any remaining buffer` block). -/
def sseFlush {J : Type} (parse : List Char → Option J) (buffer : List Char) :
    List J :=
  let t := trimChars buffer
  if dataTag.isPrefixOf t then
    let data := t.drop 6
    if data = doneMarker then [] else (parse data).toList
  else []

/-- `parseSSEStream`, one recursive step per `reader.read()` chunk: append
the chunk to the carry-over buffer, split on newlines, keep the final
segment as the new buffer, process the complete lines (returning early on
`[DONE]`), and flush the remaining buffer at end of stream. -/
def parseSSEStream {J : Type} (parse : List Char → Option J) :
    List (List Char) → List Char → List J
  | [], buffer => sseFlush parse buffer
  | chunk :: rest, buffer =>
    let parts := splitNL (buffer ++ chunk)
    let r := processLines parse parts.dropLast
    if r.2 then r.1 else r.1 ++ parseSSEStream parse rest (parts.getLastD [])

/-! ### A character-at-a-time reference machine for the decoder

The chunked decoder is proved equal to folding this single-character step
over the concatenation of all chunks.  Chunk-boundary insensitivity (claim
C1) and the `[DONE]` early-stop property (claim C6) follow. -/

/-- State of the character machine: payloads emitted so far, carry-over
buffer, and whether a `[DONE]` line has terminated the stream. -/
structure MState (J : Type) where
  out : List J
  buf : List Char
  term : Bool

/-- One character of input: a newline processes the buffered line, any
other character is appended to the buffer; a terminated machine absorbs
all further input. -/
def charStep {J : Type} (parse : List Char → Option J) (st : MState J)
    (c : Char) : MState J :=
  if st.term then st
  else if c = '\n' then
    match handleLine parse st.buf with
    | .terminate => ⟨st.out, [], true⟩
    | .yield j => ⟨st.out ++ [j], [], false⟩
    | .skip => ⟨st.out, [], false⟩
  else ⟨st.out, st.buf ++ [c], false⟩

/-- End-of-stream behaviour of the machine: flush the buffer unless a
`[DONE]` line already terminated the stream. -/
def finalize {J : Type} (parse : List Char → Option J) (st : MState J) :
    List J :=
  if st.term then st.out else st.out ++ sseFlush parse st.buf

/-! ## Executable model of the platform `JSON.parse`

The decoder calls the JS builtin `JSON.parse`, which is not part of this
repository.  `jsonParse` is an executable model of it covering objects,
arrays, strings with the standard escapes, booleans, null, and
integer-valued numbers (fractional and exponent forms, and numbers with
leading zeros, are outside the model); a value followed by anything other
than whitespace is rejected, as in the platform parser.  All universally
quantified decoder theorems are stated for an arbitrary parse function, so
they do not depend on this model; it is used only to evaluate concrete
scenarios. -/

/-- JSON values. -/
inductive Json where
  | null : Json
  | bool (b : Bool) : Json
  | num (n : Int) : Json
  | str (s : List Char) : Json
  | arr (elems : List Json) : Json
  | obj (fields : List (List Char × Json)) : Json

/-- Skip JSON whitespace. -/
def jsonSkipWS (l : List Char) : List Char :=
  l.dropWhile Char.isWhitespace

/-- Match a literal token and return the remaining input. -/
def jsonLit (lit l : List Char) : Option (List Char) :=
  if lit.isPrefixOf l then some (l.drop lit.length) else none

/-- One hexadecimal digit. -/
def hexDigit (c : Char) : Option Nat :=
  if '0' ≤ c ∧ c ≤ '9' then some (c.toNat - '0'.toNat)
  else if 'a' ≤ c ∧ c ≤ 'f' then some (c.toNat - 'a'.toNat + 10)
  else if 'A' ≤ c ∧ c ≤ 'F' then some (c.toNat - 'A'.toNat + 10)
  else none

/-- Parse the body of a JSON string after the opening quote, handling the
standard escape sequences; returns the decoded content and the input after
the closing quote. -/
def jsonString : Nat → List Char → Option (List Char × List Char)
  | 0, _ => none
  | _, [] => none
  | fuel + 1, c :: rest =>
    if c = '\"' then some ([], rest)
    else if c = '\\' then
      match rest with
      | [] => none
      | e :: rest2 =>
        let decoded : Option (Char × List Char) :=
          if e = '\"' then some ('\"', rest2)
          else if e = '\\' then some ('\\', rest2)
          else if e = '/' then some ('/', rest2)
          else if e = 'b' then some ('\x08', rest2)
          else if e = 'f' then some ('\x0c', rest2)
          else if e = 'n' then some ('\n', rest2)
          else if e = 'r' then some ('\r', rest2)
          else if e = 't' then some ('\t', rest2)
          else if e = 'u' then
            match rest2 with
            | h1 :: h2 :: h3 :: h4 :: rest3 =>
              match hexDigit h1, hexDigit h2, hexDigit h3, hexDigit h4 with
              | some a, some b, some c3, some d =>
                some (Char.ofNat (((a * 16 + b) * 16 + c3) * 16 + d), rest3)
              | _, _, _, _ => none
            | _ => none
          else none
        match decoded with
        | some (ch, rest3) =>
          match jsonString fuel rest3 with
          | some (s, rest4) => some (ch :: s, rest4)
          | none => none
        | none => none
    else
      match jsonString fuel rest with
      | some (s, rest2) => some (c :: s, rest2)
      | none => none

/-- Parse an integer JSON number: optional minus sign followed by digits. -/
def jsonNumber (l : List Char) : Option (Int × List Char) :=
  let core : List Char → Option (Int × List Char) := fun l2 =>
    let digits := l2.takeWhile Char.isDigit
    if digits = [] then none
    else
      some (Int.ofNat (digits.foldl (fun acc c => acc * 10 + (c.toNat - '0'.toNat)) 0),
        l2.drop digits.length)
  match l with
  | '-' :: rest =>
    match core rest with
    | some (n, rest2) => some (-n, rest2)
    | none => none
  | _ => core l

mutual

/-- Parse one JSON value, returning it with the remaining input. -/
def jsonValue : Nat → List Char → Option (Json × List Char)
  | 0, _ => none
  | fuel + 1, l =>
    let l := jsonSkipWS l
    match l with
    | [] => none
    | c :: rest =>
      if c = 'n' then
        match jsonLit "null".toList l with
        | some r => some (.null, r)
        | none => none
      else if c = 't' then
        match jsonLit "true".toList l with
        | some r => some (.bool true, r)
        | none => none
      else if c = 'f' then
        match jsonLit "false".toList l with
        | some r => some (.bool false, r)
        | none => none
      else if c = '\"' then
        match jsonString fuel rest with
        | some (s, r) => some (.str s, r)
        | none => none
      else if c = '[' then
        let body := jsonSkipWS rest
        match body with
        | ']' :: r => some (.arr [], r)
        | _ =>
          match jsonElems fuel body with
          | some (es, r) => some (.arr es, r)
          | none => none
      else if c = '\x7b' then
        let body := jsonSkipWS rest
        match body with
        | '\x7d' :: r => some (.obj [], r)
        | _ =>
          match jsonFields fuel body with
          | some (fs, r) => some (.obj fs, r)
          | none => none
      else
        match jsonNumber l with
        | some (n, r) => some (.num n, r)
        | none => none

/-- Parse the elements of a non-empty JSON array up to the closing bracket. -/
def jsonElems : Nat → List Char → Option (List Json × List Char)
  | 0, _ => none
  | fuel + 1, l =>
    match jsonValue fuel l with
    | some (j, rest) =>
      match jsonSkipWS rest with
      | ',' :: rest2 =>
        match jsonElems fuel rest2 with
        | some (es, r) => some (j :: es, r)
        | none => none
      | ']' :: rest2 => some ([j], rest2)
      | _ => none
    | none => none

/-- Parse the fields of a non-empty JSON object up to the closing brace. -/
def jsonFields : Nat → List Char → Option (List (List Char × Json) × List Char)
  | 0, _ => none
  | fuel + 1, l =>
    match jsonSkipWS l with
    | '\"' :: rest =>
      match jsonString fuel rest with
      | some (k, rest2) =>
        match jsonSkipWS rest2 with
        | ':' :: rest3 =>
          match jsonValue fuel rest3 with
          | some (v, rest4) =>
            match jsonSkipWS rest4 with
            | ',' :: rest5 =>
              match jsonFields fuel rest5 with
              | some (fs, r) => some ((k, v) :: fs, r)
              | none => none
            | '\x7d' :: rest5 => some ([(k, v)], rest5)
            | _ => none
          | none => none
        | _ => none
      | none => none
    | _ => none

end

/-- Model of `JSON.parse`: parse one value and require that only whitespace
follows it. -/
def jsonParse (l : List Char) : Option Json :=
  match jsonValue (l.length + 1) l with
  | some (j, rest) => if jsonSkipWS rest = [] then some j else none
  | none => none

/-! ## Tool-call delta accumulation (src/react/use-chat.ts, performRequest)

JS sparse arrays (`toolCalls[tc.index] = ...` may skip indices) are
modelled as lists of `Option` values in which assignment pads missing
positions with `none` holes, exactly as JS extends an array.  JS string
truthiness (`if (tc.id)`) is modelled by `strTruthy`: an absent value and
the empty string are both falsy. -/

/-- Accumulated `function` part of a tool call. -/
structure ToolCallFunction where
  name : String
  arguments : String
deriving DecidableEq

/-- An accumulated tool call (`{id, type: "function", function}`). -/
structure ToolCall where
  id : String
  type : String
  function : ToolCallFunction
deriving DecidableEq

/-- The `function` part of a streamed tool-call fragment. -/
structure ToolCallFunctionDelta where
  name : Option String := none
  arguments : Option String := none
deriving DecidableEq

/-- One streamed tool-call fragment (`ChoiceDeltaToolCall`): addressed by a
server-assigned numeric index; id/name/arguments may each be absent. -/
structure ToolCallDelta where
  index : Nat
  id : Option String := none
  function : Option ToolCallFunctionDelta := none
deriving DecidableEq

/-- JS truthiness of an optional string: `undefined` and `""` are falsy. -/
def strTruthy : Option String → Bool
  | some s => decide (s ≠ "")
  | none => false

/-- Read `toolCalls[i]` from a sparse array: a hole or an out-of-range read
is `undefined`. -/
def getSparse {α : Type} : List (Option α) → Nat → Option α
  | [], _ => none
  | x :: _, 0 => x
  | _ :: xs, i + 1 => getSparse xs i

/-- Write `toolCalls[i] = v` into a sparse array, padding skipped positions
with holes as JS does. -/
def setSparse {α : Type} : List (Option α) → Nat → α → List (Option α)
  | [], 0, v => [some v]
  | [], i + 1, v => none :: setSparse [] i v
  | _ :: xs, 0, v => some v :: xs
  | x :: xs, i + 1, v => x :: setSparse xs i v

/-- The fresh accumulator entry created on first sight of an index
(`id: tc.id || ""`, empty name and arguments). -/
def initToolCall (tc : ToolCallDelta) : ToolCall :=
  { id := tc.id.getD ""
  , type := "function"
  , function := { name := "", arguments := "" } }

/-- The entry a fragment is merged into: the existing entry at its index,
or a freshly created one. -/
def prevToolCall (acc : List (Option ToolCall)) (tc : ToolCallDelta) :
    ToolCall :=
  match getSparse acc tc.index with
  | some c => c
  | none => initToolCall tc

/-- The name carried by a fragment (`tc.function?.name`). -/
def deltaName (tc : ToolCallDelta) : Option String :=
  tc.function.bind (fun f => f.name)

/-- The arguments carried by a fragment (`tc.function?.arguments`). -/
def deltaArguments (tc : ToolCallDelta) : Option String :=
  tc.function.bind (fun f => f.arguments)

/-- Per-field merge of one fragment into an entry: a truthy id overwrites,
truthy name/arguments are appended. -/
def mergeToolCall (cur : ToolCall) (tc : ToolCallDelta) : ToolCall :=
  let c1 := if strTruthy tc.id then { cur with id := tc.id.getD "" } else cur
  let c2 :=
    if strTruthy (deltaName tc) then
      { c1 with function := { c1.function with
          name := c1.function.name ++ (deltaName tc).getD "" } }
    else c1
  if strTruthy (deltaArguments tc) then
    { c2 with function := { c2.function with
        arguments := c2.function.arguments ++ (deltaArguments tc).getD "" } }
  else c2

/-- Fold one fragment into the sparse accumulator array (the body of the
`for (const tc of delta.tool_calls)` loop). -/
def applyToolCallDelta (acc : List (Option ToolCall)) (tc : ToolCallDelta) :
    List (Option ToolCall) :=
  setSparse acc tc.index (mergeToolCall (prevToolCall acc tc) tc)

/-- `isCompleteToolCall`: id, function.name and function.arguments are all
non-empty (JS truthiness of the three strings). -/
def isCompleteToolCall (tc : ToolCall) : Bool :=
  decide (tc.id ≠ "") && decide (tc.function.name ≠ "") &&
    decide (tc.function.arguments ≠ "")

/-- The post-stream notification loop (lines 402-415 of use-chat.ts):
report each complete, not-yet-notified tool call once, recording its id in
the per-round notified set.  Iterating a JS sparse array yields `undefined`
at a hole, on which `isCompleteToolCall` throws a TypeError that aborts the
loop (caught by the orchestrator); the model therefore stops reporting at
the first hole. -/
def notifyToolCalls : List (Option ToolCall) → List String →
    List ToolCall × List String
  | [], notified => ([], notified)
  | none :: _, notified => ([], notified)
  | some tc :: rest, notified =>
    if isCompleteToolCall tc ∧ tc.id ∉ notified then
      let r := notifyToolCalls rest (tc.id :: notified)
      (tc :: r.1, r.2)
    else notifyToolCalls rest notified

/-! ## Round orchestration (src/react/use-chat.ts)

The orchestrator is modelled at the level of already-decoded stream chunks:
a round's network response carries the chunk values the SSE decoder yields.
The abort signal is modelled by the iteration index from which the polled
`abortController.signal.aborted` flag reads true, plus a flag for a fetch
call that throws an `AbortError` outright. -/

/-- Message roles and payloads (the union of the chat-completion message
parameter shapes used by the hook). -/
structure Msg where
  role : String
  content : Option String := none
  tool_calls : Option (List ToolCall) := none
  tool_call_id : Option String := none
deriving DecidableEq

/-- `ChoiceDelta`: optional text fragment and optional tool-call fragments. -/
structure ChoiceDelta where
  content : Option String := none
  tool_calls : Option (List ToolCallDelta) := none
deriving DecidableEq

/-- One element of `chunk.choices`. -/
structure Choice where
  delta : Option ChoiceDelta := none
deriving DecidableEq

/-- A decoded stream chunk (`{choices: [{delta: ...}]}`). -/
structure StreamChunk where
  choices : Option (List Choice) := none
deriving DecidableEq

/-- `chunk.choices?.[0]?.delta` with optional chaining. -/
def getDelta (chunk : StreamChunk) : Option ChoiceDelta :=
  (chunk.choices.bind List.head?).bind Choice.delta

/-- `content: accumulatedContent || null` plus conditional `tool_calls`
(only present while the sparse array is non-empty, holes filtered out). -/
def snapshotAssistant (content : String) (toolCalls : List (Option ToolCall)) :
    Msg :=
  { role := "assistant"
  , content := if content = "" then none else some content
  , tool_calls :=
      if toolCalls.length > 0 then some (toolCalls.filterMap id) else none }

/-- `replaceLastMessage`: replace the trailing message, or append when the
log is empty. -/
def replaceLastMessage (ms : List Msg) (m : Msg) : List Msg :=
  match ms with
  | [] => [m]
  | _ => ms.dropLast ++ [m]

/-- In-loop accumulation state: running text, sparse tool-call array, and
the message log (whose trailing assistant entry is replaced per delta). -/
structure LoopState where
  content : String
  toolCalls : List (Option ToolCall)
  messages : List Msg
deriving DecidableEq

/-- Fold one decoded chunk into the loop state (the body of the
`for await` loop, minus the abort poll). -/
def applyChunk (st : LoopState) (chunk : StreamChunk) : LoopState :=
  match getDelta chunk with
  | none => st
  | some delta =>
    let content :=
      if strTruthy delta.content then st.content ++ delta.content.getD ""
      else st.content
    let toolCalls :=
      match delta.tool_calls with
      | some tcs => tcs.foldl applyToolCallDelta st.toolCalls
      | none => st.toolCalls
    ⟨content, toolCalls,
      replaceLastMessage st.messages (snapshotAssistant content toolCalls)⟩

/-- Whether the polled abort flag reads true at delta iteration `k`: the
signal was triggered at some iteration index `a ≤ k`. -/
def signalAborted (abortedFrom : Option Nat) (k : Nat) : Bool :=
  match abortedFrom with
  | some a => decide (a ≤ k)
  | none => false

/-- The delta-consumption loop: the abort flag is polled at the top of each
iteration (`break` on abort), then the chunk is folded in.  Returns the
final loop state and whether the loop was abandoned by the poll. -/
def processDeltas (abortedFrom : Option Nat) :
    Nat → LoopState → List StreamChunk → LoopState × Bool
  | _, st, [] => (st, false)
  | k, st, chunk :: rest =>
    if signalAborted abortedFrom k then (st, true)
    else processDeltas abortedFrom (k + 1) (applyChunk st chunk) rest

/-- Request state machine statuses. -/
inductive Status where
  | ready
  | submitted
  | streaming
  | error
deriving DecidableEq

/-- The store facets the orchestrator mutates during a round. -/
structure RoundState where
  messages : List Msg
  status : Status
  error : Option String := none
deriving DecidableEq

/-- Per-call request options (`ChatRequestOptions`): header and body
overrides, modelled as key-value lists merged later-wins over the
transport-level values. -/
structure ChatRequestOptions where
  headers : List (String × String) := []
  body : List (String × String) := []
deriving DecidableEq

/-- The transport's view of one round's network exchange: `ok`/`status`
and `text()` of the response, and the stream-chunk values its body decodes
to (`none` models a null body). -/
structure HttpResponse where
  ok : Bool
  status : Nat
  bodyText : String
  body : Option (List StreamChunk) := none
deriving DecidableEq

/-- Everything round `n` observes from the environment: the transport
values resolved fresh for that round, the response, and how (if at all) the
caller's `stop()` cuts the round short. -/
structure RoundInput where
  transportHeaders : List (String × String) := []
  transportBody : List (String × String) := []
  response : HttpResponse
  thrownAbort : Bool := false
  abortedFrom : Option Nat := none
  onToolCallSet : Bool := false
deriving DecidableEq

/-- One issued request as recorded for verification: the transport values
and per-call options it was built from, and the message log it carried. -/
structure RequestRecord where
  transportHeaders : List (String × String)
  transportBody : List (String × String)
  messages : List Msg
  options : Option ChatRequestOptions
deriving DecidableEq

/-- The three booleans passed to the finish notification. -/
structure FinishEvent where
  isAbort : Bool
  isDisconnect : Bool
  isError : Bool
deriving DecidableEq

/-- Result of running `performRequest` (including auto-continued rounds):
final store state, the requests issued, and the finish notifications fired
in order. -/
structure RoundsResult where
  state : RoundState
  requests : List RequestRecord
  finishes : List FinishEvent
deriving DecidableEq

/-- The error message thrown for a non-2xx response:
`HTTP ${response.status}: ${errorText}`. -/
def httpErrorMessage (r : HttpResponse) : String :=
  "HTTP " ++ toString r.status ++ ": " ++ r.bodyText

/-- The empty assistant placeholder appended once the response is OK and
has a body. -/
def assistantPlaceholder : Msg := { role := "assistant", content := some "" }

/-- Whether the sparse tool-call array contains a hole.  Iterating such an
array with `for...of` yields `undefined` at the hole, and
`isCompleteToolCall(undefined)` then throws a TypeError. -/
def hasHole (tcs : List (Option ToolCall)) : Bool :=
  tcs.any (fun o => o.isNone)

/-- Model of the platform TypeError message produced by reading `.id` off
the `undefined` yielded at a sparse-array hole; stored in the error slot
when the notification loop throws. -/
def typeErrorMessage : String :=
  "Cannot read properties of undefined (reading id)"

/-- `performRequest`: one round of the state machine, recursing for
auto-continuation.  `env n` supplies round `n`'s transport resolution,
response, abort behaviour, and whether an `onToolCall` handler is
configured; `autoSend` is the `sendAutomaticallyWhen` predicate; `fuel`
bounds the recursion depth (the source recurses unboundedly; every claim
here concerns finitely many rounds).  After the delta loop — also when the
loop was abandoned by the polled abort — status is set to ready and, when
an `onToolCall` handler is configured, the notification loop (lines
402-415) iterates the sparse tool-call array inside the `try`: at a hole
it throws the TypeError modelled by `typeErrorMessage`, which the generic
catch turns into status error with a finish event keeping the current
isAbort flag and isError set; which calls get reported by that loop is
modelled separately by `notifyToolCalls`/`roundReported`. -/
def performRequest (autoSend : List Msg → Bool) (env : Nat → RoundInput) :
    Nat → Nat → Option ChatRequestOptions → RoundState → RoundsResult
  | 0, _, _, st => ⟨st, [], []⟩
  | fuel + 1, n, opts, st0 =>
    let inp := env n
    let st := { st0 with status := Status.submitted, error := none }
    let req : RequestRecord :=
      ⟨inp.transportHeaders, inp.transportBody, st.messages, opts⟩
    if inp.thrownAbort = true then
      ⟨{ st with status := Status.ready }, [req], [⟨true, false, false⟩]⟩
    else if inp.response.ok = false then
      ⟨{ st with
          status := Status.error
          error := some (httpErrorMessage inp.response) },
        [req], [⟨false, false, true⟩]⟩
    else
      match inp.response.body with
      | none =>
        ⟨{ st with
            status := Status.error
            error := some "Response body is null" },
          [req], [⟨false, false, true⟩]⟩
      | some chunks =>
        let streamingMsgs := st.messages ++ [assistantPlaceholder]
        let r := processDeltas inp.abortedFrom 0 ⟨"", [], streamingMsgs⟩ chunks
        let done : RoundState :=
          { messages := r.1.messages, status := Status.ready, error := none }
        if (inp.onToolCallSet && hasHole r.1.toolCalls) = true then
          ⟨{ messages := r.1.messages, status := Status.error,
             error := some typeErrorMessage },
            [req], [⟨r.2, false, true⟩]⟩
        else
          let fin : FinishEvent := ⟨r.2, false, false⟩
          if r.2 then ⟨done, [req], [fin]⟩
          else if autoSend done.messages then
            let next := performRequest autoSend env fuel (n + 1) opts done
            ⟨next.state, req :: next.requests, fin :: next.finishes⟩
          else ⟨done, [req], [fin]⟩

/-- `sendMessage`: normalize a string input to a user message, append it to
the log, then perform the round with the caller's per-request options. -/
def sendMessage (autoSend : List Msg → Bool) (env : Nat → RoundInput)
    (fuel : Nat) (input : Msg ⊕ String) (opts : Option ChatRequestOptions)
    (st : RoundState) : RoundsResult :=
  let userMessage : Msg :=
    match input with
    | .inr text => { role := "user", content := some text }
    | .inl m => m
  performRequest autoSend env fuel 0 opts
    { st with messages := st.messages ++ [userMessage] }

/-- `addToolResult`: append a tool message (content stringified by the
caller boundary), then evaluate the auto-send predicate; a continuation
round is issued with no per-request options. -/
def addToolResult (autoSend : List Msg → Bool) (env : Nat → RoundInput)
    (fuel : Nat) (toolCallId : String) (result : String) (st : RoundState) :
    RoundsResult :=
  let toolMessage : Msg :=
    { role := "tool", content := some result, tool_call_id := some toolCallId }
  let st2 := { st with messages := st.messages ++ [toolMessage] }
  if autoSend st2.messages then performRequest autoSend env fuel 0 none st2
  else ⟨st2, [], []⟩

/-- The sparse tool-call array accumulated by one round's stream. -/
def roundToolCalls (chunks : List StreamChunk) : List (Option ToolCall) :=
  ((processDeltas none 0 ⟨"", [], [assistantPlaceholder]⟩ chunks).1).toolCalls

/-- The tool calls reported to `onToolCall` at the end of one round (the
per-round notified set starts empty). -/
def roundReported (chunks : List StreamChunk) : List ToolCall :=
  (notifyToolCalls (roundToolCalls chunks) []).1

/-! ## Conversation store (src/react/chat-state.ts)

Every mutator of `DedalusChatState` installs a freshly constructed array
(`[...this.#messages, message]`, `slice`, spread of the caller's array).
To make this observable, the store is embedded with an explicit allocation
heap: each array ever returned by `getMessagesSnapshot` or the `messages`
getter is a handle into `heap`, and `current` is the handle held in the
private `#messages` field.  A mutation allocates a new array at the end of
the heap and repoints `current`; claim C9 is that old handles' contents
never change. -/

/-- The store mutations that touch the messages facet. -/
inductive StoreOp where
  | push (m : Msg)
  | pop
  | replaceLast (m : Msg)
  | setMsgs (ms : List Msg)
deriving DecidableEq

/-- Heap-embedded `DedalusChatState` (messages facet). -/
structure DedalusChatState where
  heap : List (List Msg)
  current : Nat
deriving DecidableEq

/-- The array currently held in `#messages`. -/
def curMsgs (s : DedalusChatState) : List Msg :=
  s.heap.getD s.current []

/-- Apply one store mutation: each constructs a fresh array from the
current one and installs it (`pushMessage` appends, `popMessage` slices off
the last element, `replaceLastMessage` clones-and-replaces the trailing
element or delegates to push on an empty log, the `messages` setter copies
the caller's array). -/
def applyOp (s : DedalusChatState) : StoreOp → DedalusChatState
  | .push m => ⟨s.heap ++ [curMsgs s ++ [m]], s.heap.length⟩
  | .pop => ⟨s.heap ++ [(curMsgs s).dropLast], s.heap.length⟩
  | .replaceLast m =>
    match curMsgs s with
    | [] => ⟨s.heap ++ [curMsgs s ++ [m]], s.heap.length⟩
    | _ => ⟨s.heap ++ [(curMsgs s).dropLast ++ [m]], s.heap.length⟩
  | .setMsgs ms => ⟨s.heap ++ [ms], s.heap.length⟩

/-! ## Concrete inputs used by witness scenarios, and auxiliary predicates -/

/-- The machine invariant: a terminated state has an empty buffer. -/
def TBInv {J : Type} (st : MState J) : Prop := st.term = true → st.buf = []

/-- Concrete chunks for the C3 witness: the id arrives with the first
fragment, the arguments complete only with the second. -/
def c3chunk1 : StreamChunk :=
  StreamChunk.mk (some [Choice.mk (some (ChoiceDelta.mk none
    (some [ToolCallDelta.mk 0 (some "t1")
      (some (ToolCallFunctionDelta.mk (some "f") none))])))])

/-- Second fragment completing the tool call of `c3chunk1`. -/
def c3chunk2 : StreamChunk :=
  StreamChunk.mk (some [Choice.mk (some (ChoiceDelta.mk none
    (some [ToolCallDelta.mk 0 none
      (some (ToolCallFunctionDelta.mk none (some "\x7b\x7d")))])))])

/-- Concrete environment for the C4 witness: HTTP 500 with body `oops`. -/
def c4env : Nat → RoundInput := fun _ =>
  { response := { ok := false, status := 500, bodyText := "oops" } }

/-- Initial store state holding only a user message. -/
def c4state : RoundState :=
  { messages := [{ role := "user", content := some "hi" }],
    status := Status.ready }

/-- A decoded chunk carrying the text fragment `s`. -/
def textChunk (s : String) : StreamChunk :=
  StreamChunk.mk (some [Choice.mk (some (ChoiceDelta.mk (some s) none))])

/-- Concrete environment for the C5 witness: an OK streaming response whose
polled abort flag fires before the second delta. -/
def c5env : Nat → RoundInput := fun _ =>
  RoundInput.mk [] []
    (HttpResponse.mk true 200 "" (some [textChunk "He", textChunk "llo"]))
    false (some 1) false

/-- A decoded chunk carrying a tool-call fragment for index 1 only, so the
accumulated sparse array gets a hole at index 0. -/
def toolChunk : StreamChunk :=
  StreamChunk.mk (some [Choice.mk (some (ChoiceDelta.mk none
    (some [ToolCallDelta.mk 1 (some "t2")
      (some (ToolCallFunctionDelta.mk (some "g") (some "\x7b\x7d")))])))])

/-- Environment for the C5 counterexample: an onToolCall handler is
configured, the stream's first delta creates a sparse hole at index 0, and
the polled abort flag fires before the second delta. -/
def c5holeEnv : Nat → RoundInput := fun _ =>
  RoundInput.mk [] []
    (HttpResponse.mk true 200 "" (some [toolChunk, textChunk "x"]))
    false (some 1) true

/-- Concrete options and environment for the C10 witness. -/
def c10opts : ChatRequestOptions :=
  { headers := [("X-Custom", "v")], body := [("temperature", "0.5")] }

/-- One OK single-chunk response used by the C10 witness environment. -/
def c10env : Nat → RoundInput := fun _ =>
  RoundInput.mk [] [] (HttpResponse.mk true 200 "" (some [textChunk "ok"]))
    false none false

/-- The user message `sendMessage` normalizes its input to. -/
def normalizeInput (input : Msg ⊕ String) : Msg :=
  match input with
  | Sum.inr text => { role := "user", content := some text }
  | Sum.inl m => m

/-! ## Lemmas: line splitting -/

theorem splitNL_cons_nl (cs : List Char) :
    splitNL ('\n' :: cs) = [] :: splitNL cs := by
  simp [splitNL, splitNLAux]

theorem splitNL_cons_other (c : Char) (cs : List Char) (h : c ≠ '\n') :
    splitNL (c :: cs) = (c :: (splitNLAux cs).1) :: (splitNLAux cs).2 := by
  simp [splitNL, splitNLAux, h]

theorem splitNLAux_no_newline (b : List Char) (h : '\n' ∉ b) :
    splitNLAux b = (b, []) := by
  induction b with
  | nil => rfl
  | cons c cs ih =>
    simp only [List.mem_cons, not_or] at h
    obtain ⟨hc, hcs⟩ := h
    simp [splitNLAux, ih hcs, Ne.symm hc]

theorem splitNL_no_newline (b : List Char) (h : '\n' ∉ b) :
    splitNL b = [b] := by
  simp [splitNL, splitNLAux_no_newline b h]

theorem splitNLAux_newline (b rest : List Char) (h : '\n' ∉ b) :
    splitNLAux (b ++ '\n' :: rest) = (b, splitNL rest) := by
  induction b with
  | nil => simp [splitNLAux, splitNL]
  | cons c cs ih =>
    simp only [List.mem_cons, not_or] at h
    obtain ⟨hc, hcs⟩ := h
    simp [splitNLAux, ih hcs, Ne.symm hc]

theorem splitNL_newline (b rest : List Char) (h : '\n' ∉ b) :
    splitNL (b ++ '\n' :: rest) = b :: splitNL rest := by
  simp [splitNL, splitNLAux_newline b rest h]

theorem splitNL_mem_no_newline (s : List Char) :
    ∀ l ∈ splitNL s, '\n' ∉ l := by
  induction s with
  | nil =>
    intro l hl
    simp [splitNL, splitNLAux] at hl
    simp [hl]
  | cons c cs ih =>
    intro l hl
    by_cases hc : c = '\n'
    · subst hc
      rw [splitNL_cons_nl] at hl
      rcases List.mem_cons.mp hl with rfl | hl2
      · simp
      · exact ih l hl2
    · rw [splitNL_cons_other c cs hc] at hl
      rcases List.mem_cons.mp hl with rfl | hl2
      · intro hmem
        rcases List.mem_cons.mp hmem with h1 | h2
        · exact hc h1.symm
        · exact ih (splitNLAux cs).1 (List.mem_cons_self _ _) h2
      · exact ih l (List.mem_cons_of_mem _ hl2)

theorem splitNL_getLastD_no_newline (s : List Char) :
    '\n' ∉ (splitNL s).getLastD [] := by
  have hne : splitNL s ≠ [] := by simp [splitNL]
  have : (splitNL s).getLastD [] = (splitNL s).getLast hne := by
    rw [List.getLastD_eq_getLast?, List.getLast?_eq_getLast _ hne]
    rfl
  rw [this]
  exact splitNL_mem_no_newline s _ (List.getLast_mem hne)

/-! ## Lemmas: the character machine -/

theorem charStep_term {J : Type} (parse : List Char → Option J) (st : MState J)
    (c : Char) (h : st.term = true) : charStep parse st c = st := by
  simp [charStep, h]

theorem foldl_charStep_term {J : Type} (parse : List Char → Option J)
    (st : MState J) (l : List Char) (h : st.term = true) :
    List.foldl (charStep parse) st l = st := by
  induction l with
  | nil => rfl
  | cons c cs ih => rw [List.foldl_cons, charStep_term parse st c h]; exact ih

theorem charStep_out {J : Type} (parse : List Char → Option J) (st : MState J)
    (c : Char) :
    charStep parse st c =
      ⟨st.out ++ (charStep parse ⟨[], st.buf, st.term⟩ c).out,
       (charStep parse ⟨[], st.buf, st.term⟩ c).buf,
       (charStep parse ⟨[], st.buf, st.term⟩ c).term⟩ := by
  obtain ⟨o, b, t⟩ := st
  cases t with
  | true => simp [charStep]
  | false =>
    by_cases hc : c = '\n'
    · subst hc
      cases h : handleLine parse b <;> simp [charStep, h]
    · simp [charStep, hc]

theorem foldl_charStep_out {J : Type} (parse : List Char → Option J)
    (l : List Char) (st : MState J) :
    List.foldl (charStep parse) st l =
      ⟨st.out ++ (List.foldl (charStep parse) ⟨[], st.buf, st.term⟩ l).out,
       (List.foldl (charStep parse) ⟨[], st.buf, st.term⟩ l).buf,
       (List.foldl (charStep parse) ⟨[], st.buf, st.term⟩ l).term⟩ := by
  induction l generalizing st with
  | nil => simp
  | cons c cs ih =>
    rw [List.foldl_cons, List.foldl_cons, ih (charStep parse st c),
      ih (charStep parse ⟨[], st.buf, st.term⟩ c)]
    rw [charStep_out parse st c]
    simp [List.append_assoc]

theorem tb_charStep {J : Type} (parse : List Char → Option J) (st : MState J)
    (c : Char) (h : TBInv st) : TBInv (charStep parse st c) := by
  obtain ⟨o, b, t⟩ := st
  cases t with
  | true => simpa [charStep] using h
  | false =>
    by_cases hc : c = '\n'
    · subst hc
      cases hl : handleLine parse b <;> simp [charStep, hl, TBInv]
    · simp [charStep, hc, TBInv]

theorem tb_foldl {J : Type} (parse : List Char → Option J) (l : List Char)
    (st : MState J) (h : TBInv st) :
    TBInv (List.foldl (charStep parse) st l) := by
  induction l generalizing st with
  | nil => exact h
  | cons c cs ih => exact ih _ (tb_charStep parse st c h)

theorem foldl_charStep_buf_nil {J : Type} (parse : List Char → Option J)
    (s : List Char) (st : MState J) (hTB : TBInv st)
    (h : s.getLast? = some '\n') :
    (List.foldl (charStep parse) st s).buf = [] := by
  have hne : s ≠ [] := by rintro rfl; simp at h
  have hlast : s.getLast hne = '\n' := by
    have h2 := List.getLast?_eq_getLast s hne
    rw [h2] at h
    exact Option.some_injective _ h
  have hsplit : s.dropLast ++ [s.getLast hne] = s :=
    List.dropLast_append_getLast hne
  rw [← hsplit, hlast, List.foldl_append]
  set M := List.foldl (charStep parse) st s.dropLast with hM
  have hTBM : TBInv M := tb_foldl parse _ st hTB
  cases hterm : M.term with
  | true =>
    rw [List.foldl_cons, List.foldl_nil, charStep_term parse M '\n' hterm]
    exact hTBM hterm
  | false =>
    rw [List.foldl_cons, List.foldl_nil]
    cases hl : handleLine parse M.buf <;> simp [charStep, hterm, hl]

/-- Folding one chunk through the character machine performs exactly the
decoder's per-chunk line processing. -/
theorem foldl_charStep_chunk {J : Type} (parse : List Char → Option J)
    (chunk : List Char) : ∀ (b : List Char), '\n' ∉ b →
    List.foldl (charStep parse) ⟨[], b, false⟩ chunk =
      (if (processLines parse (splitNL (b ++ chunk)).dropLast).2 then
        (⟨(processLines parse (splitNL (b ++ chunk)).dropLast).1, [], true⟩ :
          MState J)
      else
        ⟨(processLines parse (splitNL (b ++ chunk)).dropLast).1,
          (splitNL (b ++ chunk)).getLastD [], false⟩) := by
  induction chunk with
  | nil =>
    intro b hb
    rw [List.append_nil, splitNL_no_newline b hb]
    simp [processLines]
  | cons c rest ih =>
    intro b hb
    by_cases hc : c = '\n'
    · subst hc
      rw [List.foldl_cons]
      rw [splitNL_newline b rest hb]
      have hrest := ih [] (by simp)
      rw [List.nil_append] at hrest
      have hsplitne : splitNL rest = (splitNLAux rest).1 :: (splitNLAux rest).2 :=
        rfl
      cases hl : handleLine parse b with
      | terminate =>
        have : charStep parse ⟨[], b, false⟩ '\n' = (⟨[], [], true⟩ : MState J) := by
          simp [charStep, hl]
        rw [this, foldl_charStep_term parse _ rest rfl]
        have hdrop : (b :: splitNL rest).dropLast = b :: (splitNL rest).dropLast := by
          rw [hsplitne]; rfl
        rw [hdrop]
        simp [processLines, hl]
      | yield j =>
        have hstep2 : charStep parse ⟨[], b, false⟩ '\n' =
            (⟨[j], [], false⟩ : MState J) := by
          simp [charStep, hl]
        rw [hstep2, foldl_charStep_out parse rest ⟨[j], [], false⟩]
        simp only
        rw [hrest]
        have hdrop : (b :: splitNL rest).dropLast = b :: (splitNL rest).dropLast := by
          rw [hsplitne]; rfl
        rw [hdrop]
        have hproc : processLines parse (b :: (splitNL rest).dropLast) =
            (j :: (processLines parse (splitNL rest).dropLast).1,
             (processLines parse (splitNL rest).dropLast).2) := by
          simp [processLines, hl]
        rw [hproc]
        cases hterm : (processLines parse (splitNL rest).dropLast).2 with
        | true => simp [hterm]
        | false =>
          have hlastD : (b :: splitNL rest).getLast?.getD [] =
              (splitNL rest).getLast?.getD [] := by
            rw [hsplitne, List.getLast?_cons_cons]
          simp [hlastD, List.getLastD_eq_getLast?]
      | skip =>
        have hstep2 : charStep parse ⟨[], b, false⟩ '\n' =
            (⟨[], [], false⟩ : MState J) := by
          simp [charStep, hl]
        rw [hstep2, hrest]
        have hdrop : (b :: splitNL rest).dropLast = b :: (splitNL rest).dropLast := by
          rw [hsplitne]; rfl
        rw [hdrop]
        have hproc : processLines parse (b :: (splitNL rest).dropLast) =
            processLines parse (splitNL rest).dropLast := by
          simp [processLines, hl]
        rw [hproc]
        cases hterm : (processLines parse (splitNL rest).dropLast).2 with
        | true => simp [hterm]
        | false =>
          have hlastD : (b :: splitNL rest).getLast?.getD [] =
              (splitNL rest).getLast?.getD [] := by
            rw [hsplitne, List.getLast?_cons_cons]
          simp [hlastD, List.getLastD_eq_getLast?]
    · rw [List.foldl_cons]
      have hstep : charStep parse ⟨[], b, false⟩ c =
          (⟨[], b ++ [c], false⟩ : MState J) := by
        simp [charStep, hc]
      rw [hstep]
      have hb2 : '\n' ∉ b ++ [c] := by
        simp only [List.mem_append, List.mem_singleton, not_or]
        exact ⟨hb, fun hh => hc hh.symm⟩
      have happ : b ++ c :: rest = (b ++ [c]) ++ rest := by simp
      rw [happ]
      exact ih (b ++ [c]) hb2

/-- Unfolding equation for `parseSSEStream` on a cons of chunks. -/
theorem parseSSEStream_cons {J : Type} (parse : List Char → Option J)
    (chunk : List Char) (rest : List (List Char)) (buffer : List Char) :
    parseSSEStream parse (chunk :: rest) buffer =
      if (processLines parse (splitNL (buffer ++ chunk)).dropLast).2 then
        (processLines parse (splitNL (buffer ++ chunk)).dropLast).1
      else
        (processLines parse (splitNL (buffer ++ chunk)).dropLast).1 ++
          parseSSEStream parse rest ((splitNL (buffer ++ chunk)).getLastD []) :=
  rfl

/-- Prepending already-emitted output commutes with finalization. -/
theorem finalize_out {J : Type} (parse : List Char → Option J) (o : List J)
    (st : MState J) :
    finalize parse ⟨o ++ st.out, st.buf, st.term⟩ = o ++ finalize parse st := by
  cases h : st.term <;> simp [finalize, h, List.append_assoc]

/-- The chunked decoder equals the character machine run over the
concatenation of the remaining chunks. -/
theorem parseSSEStream_eq_machine {J : Type} (parse : List Char → Option J)
    (cs : List (List Char)) : ∀ (b : List Char), '\n' ∉ b →
    parseSSEStream parse cs b =
      finalize parse (List.foldl (charStep parse) ⟨[], b, false⟩ cs.flatten) := by
  induction cs with
  | nil =>
    intro b hb
    simp [parseSSEStream, finalize]
  | cons c rest ih =>
    intro b hb
    rw [List.flatten_cons, List.foldl_append, foldl_charStep_chunk parse c b hb]
    cases hterm : (processLines parse (splitNL (b ++ c)).dropLast).2 with
    | true =>
      simp only [hterm, if_true]
      rw [foldl_charStep_term parse _ _ rfl]
      simp [parseSSEStream, hterm, finalize]
    | false =>
      rw [if_neg (by simp)]
      have hL : '\n' ∉ (splitNL (b ++ c)).getLastD [] :=
        splitNL_getLastD_no_newline (b ++ c)
      rw [foldl_charStep_out parse rest.flatten
        ⟨(processLines parse (splitNL (b ++ c)).dropLast).1,
          (splitNL (b ++ c)).getLastD [], false⟩]
      simp only
      rw [finalize_out]
      rw [← ih _ hL, parseSSEStream_cons]
      rw [if_neg (by simp [hterm])]

/-- Folding an unterminated `data: [DONE]` fragment through the machine
from an empty buffer leaves it buffered. -/
theorem foldl_charStep_doneFrag {J : Type} (parse : List Char → Option J)
    (o : List J) :
    List.foldl (charStep parse) ⟨o, [], false⟩ "data: [DONE]".toList =
      ⟨o, "data: [DONE]".toList, false⟩ := by
  have hR : List.foldl (charStep parse) (⟨[], [], false⟩ : MState J)
      "data: [DONE]".toList = ⟨[], "data: [DONE]".toList, false⟩ := rfl
  rw [foldl_charStep_out parse _ ⟨o, [], false⟩]
  rw [hR]
  simp

/-- The `data: [DONE]` line is recognized as the termination marker. -/
theorem handleLine_done {J : Type} (parse : List Char → Option J) :
    handleLine parse "data: [DONE]".toList = LineAction.terminate := rfl

/-- Folding a terminating `data: [DONE]` line through the machine from an
empty buffer terminates it. -/
theorem foldl_charStep_doneLine {J : Type} (parse : List Char → Option J)
    (o : List J) :
    List.foldl (charStep parse) ⟨o, [], false⟩ "data: [DONE]\n".toList =
      ⟨o, [], true⟩ := by
  have hsplit : "data: [DONE]\n".toList = "data: [DONE]".toList ++ ['\n'] := by
    decide
  have hstep : charStep parse ⟨o, "data: [DONE]".toList, false⟩ '\n' =
      ⟨o, [], true⟩ := by
    show (match handleLine parse "data: [DONE]".toList with
      | LineAction.terminate => (⟨o, [], true⟩ : MState J)
      | LineAction.yield j => ⟨o ++ [j], [], false⟩
      | LineAction.skip => ⟨o, [], false⟩) = ⟨o, [], true⟩
    rw [handleLine_done parse]
  rw [hsplit, List.foldl_append, foldl_charStep_doneFrag parse o]
  simp only [List.foldl_cons, List.foldl_nil]
  exact hstep

/-- C1: for every sequence of SSE text chunks, decoding them as one
fully-buffered chunk and decoding them split at the given chunk boundaries
yield the identical sequence of parsed payloads: the decoder's carry-over
buffering makes the output independent of where the input is split. -/
theorem claim_C1_sse_boundary_insensitive {J : Type}
    (parse : List Char → Option J) (chunks : List (List Char)) :
    parseSSEStream parse [chunks.flatten] [] =
      parseSSEStream parse chunks [] := by
  rw [parseSSEStream_eq_machine parse [chunks.flatten] [] (by simp),
    parseSSEStream_eq_machine parse chunks [] (by simp)]
  simp

/-- C6: a complete line whose payload is exactly `[DONE]` terminates the
yielded sequence immediately — whatever input follows it contributes no
further payload — and a trailing buffered `[DONE]` at end of stream is
likewise not yielded as a payload.  The hypothesis states that the
`[DONE]` line starts at a line boundary of the preceding input. -/
theorem claim_C6_done_terminates {J : Type} (parse : List Char → Option J)
    (s t : List Char) (h : s = [] ∨ s.getLast? = some '\n') :
    parseSSEStream parse [s ++ "data: [DONE]\n".toList ++ t] [] =
        parseSSEStream parse [s] [] ∧
      parseSSEStream parse [s ++ "data: [DONE]".toList] [] =
        parseSSEStream parse [s] [] := by
  have hTB : TBInv (⟨[], [], false⟩ : MState J) := by intro hh; rfl
  have hbuf : (List.foldl (charStep parse) (⟨[], [], false⟩ : MState J) s).buf
      = [] := by
    rcases h with rfl | h
    · rfl
    · exact foldl_charStep_buf_nil parse s _ hTB h
  set M := List.foldl (charStep parse) (⟨[], [], false⟩ : MState J) s with hM
  have hFlushNil : sseFlush parse ([] : List Char) = [] := rfl
  have hFlushDone :
      sseFlush parse ['d', 'a', 't', 'a', ':', ' ', '[', 'D', 'O', 'N', 'E', ']']
        = [] := rfl
  have hRHS : parseSSEStream parse [s] [] = finalize parse M := by
    rw [parseSSEStream_eq_machine parse [s] [] (by simp)]
    simp [hM]
  constructor
  · rw [parseSSEStream_eq_machine parse _ [] (by simp), hRHS]
    simp only [List.flatten_cons, List.flatten_nil, List.append_nil]
    rw [List.foldl_append, List.foldl_append, ← hM]
    cases hMt : M.term with
    | true =>
      rw [foldl_charStep_term parse M _ hMt, foldl_charStep_term parse M t hMt]
    | false =>
      have hMeq : M = ⟨M.out, [], false⟩ := by rw [← hbuf, ← hMt]
      rw [hMeq, foldl_charStep_doneLine parse M.out,
        foldl_charStep_term parse _ t rfl]
      simp [finalize, hFlushNil]
  · rw [parseSSEStream_eq_machine parse _ [] (by simp), hRHS]
    simp only [List.flatten_cons, List.flatten_nil, List.append_nil]
    rw [List.foldl_append, ← hM]
    cases hMt : M.term with
    | true => rw [foldl_charStep_term parse M _ hMt]
    | false =>
      have hMeq : M = ⟨M.out, [], false⟩ := by rw [← hbuf, ← hMt]
      rw [hMeq, foldl_charStep_doneFrag parse M.out]
      simp [finalize, hFlushNil, hFlushDone]

/-- Witness for C6 at a concrete input. -/
theorem claim_C6_witness :
    (("data: 1\n".toList : List Char) = [] ∨
      "data: 1\n".toList.getLast? = some '\n') ∧
    (parseSSEStream jsonParse
        ["data: 1\n".toList ++ "data: [DONE]\n".toList ++ "data: 2\n".toList]
        [] = parseSSEStream jsonParse ["data: 1\n".toList] [] ∧
      parseSSEStream jsonParse
        ["data: 1\n".toList ++ "data: [DONE]".toList] [] =
        parseSSEStream jsonParse ["data: 1\n".toList] []) :=
  ⟨Or.inr rfl,
    claim_C6_done_terminates jsonParse "data: 1\n".toList "data: 2\n".toList
      (Or.inr rfl)⟩

/-- A line the loop body skips (no `data: ` prefix, or a payload the parse
function rejects) never affects the processing of the other lines. -/
theorem processLines_skip {J : Type} (parse : List Char → Option J)
    (pre post : List (List Char)) (l : List Char)
    (h : handleLine parse l = LineAction.skip) :
    processLines parse (pre ++ l :: post) = processLines parse (pre ++ post) := by
  induction pre with
  | nil => simp [processLines, h]
  | cons p ps ih =>
    cases hp : handleLine parse p with
    | terminate => simp [processLines, hp]
    | yield j => simp [processLines, hp, ih]
    | skip => simp [processLines, hp, ih]

/-- C7: a `data:` line carrying malformed JSON is silently skipped without
terminating or erroring the sequence, and every other line is processed as
if the malformed line were absent; concretely, feeding `data: {bad` then
`data: {"a":1}` (each newline-terminated, in two chunks) yields exactly the
one payload `{"a":1}`. -/
theorem claim_C7_malformed_skipped :
    (∀ (J : Type) (parse : List Char → Option J)
      (pre post : List (List Char)) (l : List Char),
      handleLine parse l = LineAction.skip →
      processLines parse (pre ++ l :: post) = processLines parse (pre ++ post))
    ∧ parseSSEStream jsonParse
        ["data: \x7bbad\n\n".toList, "data: \x7b\"a\":1\x7d\n\n".toList] [] =
        [Json.obj [("a".toList, Json.num 1)]] :=
  ⟨fun _ parse pre post l h => processLines_skip parse pre post l h, rfl⟩

/-- Witness for C7's universally quantified part at a concrete input. -/
theorem claim_C7_witness :
    handleLine jsonParse "data: \x7bbad".toList = LineAction.skip ∧
    processLines jsonParse (["x".toList] ++ "data: \x7bbad".toList :: []) =
      processLines jsonParse (["x".toList] ++ []) :=
  ⟨rfl, claim_C7_malformed_skipped.1 Json jsonParse ["x".toList] []
    "data: \x7bbad".toList rfl⟩

/-! ## Lemmas: sparse-array accumulation -/

theorem getSparse_setSparse_self {α : Type} (i : Nat) :
    ∀ (l : List (Option α)) (v : α), getSparse (setSparse l i v) i = some v := by
  induction i with
  | zero =>
    intro l v
    cases l <;> rfl
  | succ n ih =>
    intro l v
    cases l with
    | nil => exact ih [] v
    | cons x xs => exact ih xs v

theorem getSparse_setSparse_other {α : Type} (i : Nat) :
    ∀ (j : Nat) (l : List (Option α)) (v : α), i ≠ j →
    getSparse (setSparse l i v) j = getSparse l j := by
  induction i with
  | zero =>
    intro j l v h
    cases j with
    | zero => exact absurd rfl h
    | succ m => cases l with
      | nil => rfl
      | cons x xs => rfl
  | succ n ih =>
    intro j l v h
    cases j with
    | zero => cases l with
      | nil => rfl
      | cons x xs => rfl
    | succ m =>
      have hnm : n ≠ m := fun hh => h (by rw [hh])
      cases l with
      | nil => exact ih m [] v hnm
      | cons x xs => exact ih m xs v hnm

theorem applyToolCallDelta_self (acc : List (Option ToolCall))
    (d : ToolCallDelta) :
    getSparse (applyToolCallDelta acc d) d.index =
      some (mergeToolCall (prevToolCall acc d) d) :=
  getSparse_setSparse_self d.index acc _

theorem applyToolCallDelta_other (acc : List (Option ToolCall))
    (d : ToolCallDelta) (j : Nat) (h : j ≠ d.index) :
    getSparse (applyToolCallDelta acc d) j = getSparse acc j :=
  getSparse_setSparse_other d.index j acc _ (fun hh => h hh.symm)

/-- Accumulation at index `i` is unaffected by fragments for other indices:
folding all fragments and folding only index-`i` fragments agree at `i`,
for any pair of starting accumulators that agree at `i`. -/
theorem foldl_applyToolCallDelta_filter (i : Nat) :
    ∀ (ds : List ToolCallDelta) (acc acc2 : List (Option ToolCall)),
    getSparse acc i = getSparse acc2 i →
    getSparse (List.foldl applyToolCallDelta acc ds) i =
      getSparse (List.foldl applyToolCallDelta acc2
        (ds.filter (fun d => d.index == i))) i := by
  intro ds
  induction ds with
  | nil =>
    intro acc acc2 h
    exact h
  | cons d rest ih =>
    intro acc acc2 h
    by_cases hd : d.index = i
    · have hfil : (d :: rest).filter (fun x => x.index == i) =
          d :: rest.filter (fun x => x.index == i) := by
        simp [List.filter_cons, hd]
      rw [hfil, List.foldl_cons, List.foldl_cons]
      apply ih
      subst hd
      rw [applyToolCallDelta_self, applyToolCallDelta_self]
      unfold prevToolCall
      rw [h]
    · have hfil : (d :: rest).filter (fun x => x.index == i) =
          rest.filter (fun x => x.index == i) := by
        simp [List.filter_cons, hd]
      rw [hfil, List.foldl_cons]
      apply ih
      rw [applyToolCallDelta_other acc d i (fun hh => hd hh.symm)]
      exact h

/-- C2: merging a fragment into the accumulator is index-scoped and
per-field: a truthy (non-empty) incoming id overwrites the entry's id and a
falsy one leaves it, name and arguments are appended when present and left
otherwise, entries at other indices are untouched, and consequently the
final accumulated entry at any index equals what folding only that index's
fragments produces (index isolation under arbitrary interleaving). -/
theorem claim_C2_toolcall_merge (acc : List (Option ToolCall))
    (d : ToolCallDelta) :
    (getSparse (applyToolCallDelta acc d) d.index =
      some (mergeToolCall (prevToolCall acc d) d)) ∧
    (strTruthy d.id = true →
      (mergeToolCall (prevToolCall acc d) d).id = d.id.getD "") ∧
    (strTruthy d.id = false →
      (mergeToolCall (prevToolCall acc d) d).id = (prevToolCall acc d).id) ∧
    (strTruthy (deltaName d) = true →
      (mergeToolCall (prevToolCall acc d) d).function.name =
        (prevToolCall acc d).function.name ++ (deltaName d).getD "") ∧
    (strTruthy (deltaName d) = false →
      (mergeToolCall (prevToolCall acc d) d).function.name =
        (prevToolCall acc d).function.name) ∧
    (strTruthy (deltaArguments d) = true →
      (mergeToolCall (prevToolCall acc d) d).function.arguments =
        (prevToolCall acc d).function.arguments ++ (deltaArguments d).getD "") ∧
    (strTruthy (deltaArguments d) = false →
      (mergeToolCall (prevToolCall acc d) d).function.arguments =
        (prevToolCall acc d).function.arguments) ∧
    (∀ j, j ≠ d.index →
      getSparse (applyToolCallDelta acc d) j = getSparse acc j) ∧
    (∀ (ds : List ToolCallDelta) (i : Nat),
      getSparse (List.foldl applyToolCallDelta [] ds) i =
        getSparse (List.foldl applyToolCallDelta []
          (ds.filter (fun x => x.index == i))) i) := by
  refine ⟨applyToolCallDelta_self acc d, ?_, ?_, ?_, ?_, ?_, ?_,
    fun j hj => applyToolCallDelta_other acc d j hj,
    fun ds i => foldl_applyToolCallDelta_filter i ds [] [] rfl⟩ <;>
    intro h <;>
    cases hid : strTruthy d.id <;>
    cases hn : strTruthy (deltaName d) <;>
    cases ha : strTruthy (deltaArguments d) <;>
    simp_all [mergeToolCall]

/-- Witness for C2 at a concrete fragment. -/
theorem claim_C2_witness :
    strTruthy (ToolCallDelta.mk 0 (some "t1")
      (some (ToolCallFunctionDelta.mk (some "f") none))).id = true ∧
    (mergeToolCall
      (prevToolCall [] (ToolCallDelta.mk 0 (some "t1")
        (some (ToolCallFunctionDelta.mk (some "f") none))))
      (ToolCallDelta.mk 0 (some "t1")
        (some (ToolCallFunctionDelta.mk (some "f") none)))).id =
      (ToolCallDelta.mk 0 (some "t1")
        (some (ToolCallFunctionDelta.mk (some "f") none))).id.getD "" :=
  ⟨by decide,
    (claim_C2_toolcall_merge []
      (ToolCallDelta.mk 0 (some "t1")
        (some (ToolCallFunctionDelta.mk (some "f") none)))).2.1 (by decide)⟩

/-! ## Lemmas: tool-call notification -/

/-- Every tool call reported by the notification loop is complete and was
not previously notified, and the reported ids are pairwise distinct. -/
theorem notifyToolCalls_sound :
    ∀ (tcs : List (Option ToolCall)) (notified : List String),
    (∀ tc ∈ (notifyToolCalls tcs notified).1,
      isCompleteToolCall tc = true ∧ tc.id ∉ notified) ∧
    ((notifyToolCalls tcs notified).1.map (fun tc => tc.id)).Nodup := by
  intro tcs
  induction tcs with
  | nil =>
    intro notified
    exact ⟨fun tc h => absurd h (List.not_mem_nil tc), List.nodup_nil⟩
  | cons x rest ih =>
    intro notified
    cases x with
    | none =>
      exact ⟨fun tc h => absurd h (List.not_mem_nil tc), List.nodup_nil⟩
    | some tc0 =>
      by_cases hc : isCompleteToolCall tc0 ∧ tc0.id ∉ notified
      · have heq : notifyToolCalls (some tc0 :: rest) notified =
            (tc0 :: (notifyToolCalls rest (tc0.id :: notified)).1,
             (notifyToolCalls rest (tc0.id :: notified)).2) := by
          simp only [notifyToolCalls]
          rw [if_pos hc]
        have hrec := ih (tc0.id :: notified)
        rw [heq]
        constructor
        · intro tc htc
          rcases List.mem_cons.mp htc with rfl | h2
          · exact ⟨hc.1, hc.2⟩
          · have h3 := hrec.1 tc h2
            exact ⟨h3.1, fun hmem => h3.2 (List.mem_cons_of_mem _ hmem)⟩
        · rw [List.map_cons]
          refine List.nodup_cons.mpr ⟨?_, hrec.2⟩
          intro hmem
          obtain ⟨tc, htc, hid⟩ := List.mem_map.mp hmem
          have h3 := hrec.1 tc htc
          exact h3.2 (hid ▸ List.mem_cons_self _ _)
      · have heq : notifyToolCalls (some tc0 :: rest) notified =
            notifyToolCalls rest notified := by
          simp only [notifyToolCalls]
          rw [if_neg hc]
        rw [heq]
        exact ih notified

/-- C3: a tool call is reported to the onToolCall collaborator only if its
id, name and arguments are all non-empty; each id is reported at most once
per round (the reported ids are pairwise distinct, the per-round notified
set starting empty); and the reported set is a function of the final
accumulated array alone — the check runs once after the stream ends, so
intermediate accumulation snapshots cannot cause extra reports. -/
theorem claim_C3_toolcall_notification (chunks : List StreamChunk) :
    (∀ tc ∈ roundReported chunks, isCompleteToolCall tc = true) ∧
    ((roundReported chunks).map (fun tc => tc.id)).Nodup ∧
    (∀ chunks2 : List StreamChunk,
      roundToolCalls chunks = roundToolCalls chunks2 →
      roundReported chunks = roundReported chunks2) := by
  refine ⟨?_, ?_, ?_⟩
  · intro tc h
    exact ((notifyToolCalls_sound (roundToolCalls chunks) []).1 tc h).1
  · exact (notifyToolCalls_sound (roundToolCalls chunks) []).2
  · intro c2 h
    unfold roundReported
    rw [h]

/-- Witness for C3 at a concrete two-fragment round. -/
theorem claim_C3_witness :
    (⟨"t1", "function", ⟨"f", "\x7b\x7d"⟩⟩ : ToolCall) ∈
        roundReported [c3chunk1, c3chunk2] ∧
      isCompleteToolCall ⟨"t1", "function", ⟨"f", "\x7b\x7d"⟩⟩ = true := by
  have hmem : (⟨"t1", "function", ⟨"f", "\x7b\x7d"⟩⟩ : ToolCall) ∈
      roundReported [c3chunk1, c3chunk2] := by
    rw [show roundReported [c3chunk1, c3chunk2] =
      [⟨"t1", "function", ⟨"f", "\x7b\x7d"⟩⟩] from rfl]
    exact List.mem_singleton.mpr rfl
  exact ⟨hmem,
    (claim_C3_toolcall_notification [c3chunk1, c3chunk2]).1 _ hmem⟩

/-! ## Lemmas: round orchestration -/

/-- If the abort signal fires at an iteration index the loop reaches, the
polled check abandons the loop. -/
theorem processDeltas_aborts (a : Nat) :
    ∀ (cs : List StreamChunk) (k : Nat) (st : LoopState),
    a < k + cs.length → k ≤ a →
    (processDeltas (some a) k st cs).2 = true := by
  intro cs
  induction cs with
  | nil =>
    intro k st h1 h2
    simp only [List.length_nil] at h1
    omega
  | cons c rest ih =>
    intro k st h1 h2
    by_cases hk : a ≤ k
    · have hsig : signalAborted (some a) k = true := by
        simp [signalAborted, hk]
      simp [processDeltas, hsig]
    · have hsig : signalAborted (some a) k = false := by
        simp [signalAborted]
        omega
      simp only [processDeltas, hsig]
      rw [if_neg (by simp)]
      exact ih (k + 1) (applyChunk st c) (by simp at h1; omega) (by omega)

/-- C4: a non-2xx response fails the round with an error message carrying
the numeric status code and the response body text, status becomes error,
and the message log is left exactly as before the request — the assistant
placeholder is only appended after the response is confirmed OK. -/
theorem claim_C4_http_error (autoSend : List Msg → Bool)
    (env : Nat → RoundInput) (fuel n : Nat) (opts : Option ChatRequestOptions)
    (st : RoundState) (hab : (env n).thrownAbort = false)
    (hok : (env n).response.ok = false) :
    (performRequest autoSend env (fuel + 1) n opts st).state.messages =
        st.messages ∧
    (performRequest autoSend env (fuel + 1) n opts st).state.status =
        Status.error ∧
    (performRequest autoSend env (fuel + 1) n opts st).state.error =
        some (httpErrorMessage (env n).response) ∧
    (performRequest autoSend env (fuel + 1) n opts st).finishes =
        [⟨false, false, true⟩] ∧
    List.IsInfix (toString (env n).response.status).toList
      (httpErrorMessage (env n).response).toList ∧
    List.IsInfix (env n).response.bodyText.toList
      (httpErrorMessage (env n).response).toList := by
  have hstep : performRequest autoSend env (fuel + 1) n opts st =
      ⟨⟨st.messages, Status.error, some (httpErrorMessage (env n).response)⟩,
        [⟨(env n).transportHeaders, (env n).transportBody, st.messages, opts⟩],
        [⟨false, false, true⟩]⟩ := by
    simp only [performRequest]
    rw [if_neg (by simp [hab]), if_pos hok]
  have hmsg : (httpErrorMessage (env n).response).toList =
      "HTTP ".toList ++ (toString (env n).response.status).toList ++
        ": ".toList ++ (env n).response.bodyText.toList := rfl
  refine ⟨by rw [hstep], by rw [hstep], by rw [hstep], by rw [hstep], ?_, ?_⟩
  · exact ⟨"HTTP ".toList,
      ": ".toList ++ (env n).response.bodyText.toList,
      by rw [hmsg]; simp [List.append_assoc]⟩
  · exact ⟨"HTTP ".toList ++ (toString (env n).response.status).toList ++
        ": ".toList, [],
      by rw [hmsg]; simp [List.append_assoc]⟩

/-- Witness for C4 at the HTTP-500/`oops` scenario. -/
theorem claim_C4_witness :
    ((c4env 0).thrownAbort = false ∧ (c4env 0).response.ok = false) ∧
    ((performRequest (fun _ => false) c4env 1 0 none c4state).state.messages =
        c4state.messages ∧
      (performRequest (fun _ => false) c4env 1 0 none c4state).state.status =
        Status.error ∧
      (performRequest (fun _ => false) c4env 1 0 none c4state).state.error =
        some (httpErrorMessage (c4env 0).response) ∧
      (performRequest (fun _ => false) c4env 1 0 none c4state).finishes =
        [⟨false, false, true⟩] ∧
      List.IsInfix (toString (c4env 0).response.status).toList
        (httpErrorMessage (c4env 0).response).toList ∧
      List.IsInfix (c4env 0).response.bodyText.toList
        (httpErrorMessage (c4env 0).response).toList) :=
  ⟨⟨rfl, rfl⟩,
    claim_C4_http_error (fun _ => false) c4env 0 0 none c4state rfl rfl⟩

/-- C5 counterexample: at a concrete round cut short by the polled abort
flag (stop() during streaming), with an onToolCall handler configured and
the accumulated sparse tool-call array holding a hole at index 0, the
post-stream notification loop throws the hole TypeError inside the try,
the generic catch flips the round to status error, and the finish
notification fires with isAbort = true and isError = true — refuting the
original claim that such a round terminates with status ready (never
error) and a finish of isAbort = true alone. -/
theorem claim_C5_counterexample :
    ((c5holeEnv 0).thrownAbort = false ∧ (c5holeEnv 0).response.ok = true ∧
      (c5holeEnv 0).response.body = some [toolChunk, textChunk "x"] ∧
      (c5holeEnv 0).abortedFrom = some 1 ∧
      1 < ([toolChunk, textChunk "x"] : List StreamChunk).length) ∧
    (performRequest (fun _ => true) c5holeEnv 3 0 none c4state).state.status =
      Status.error ∧
    (performRequest (fun _ => true) c5holeEnv 3 0 none c4state).state.error =
      some typeErrorMessage ∧
    (performRequest (fun _ => true) c5holeEnv 3 0 none c4state).finishes =
      [⟨true, false, true⟩] :=
  ⟨⟨rfl, rfl, rfl, rfl, by decide⟩, rfl, rfl, rfl⟩

/-- C5 (amended): if stop() cuts a round short — whether the abort surfaces
as a thrown AbortError from the network call or as the polled cancellation
flag between deltas — then in every case exactly one request was issued (no
automatic follow-up round starts), the outcome is independent of the
auto-continuation predicate (it is never consulted), and the single finish
notification fires with isAbort = true and isDisconnect = false; the round
terminates with status ready and isError = false unless the post-stream
onToolCall notification pass throws — an onToolCall handler is configured
and the accumulated sparse tool-call array contains a hole — in which case
the caught TypeError ends the round with status error and the finish
carries isAbort = true and isError = true. -/
theorem claim_C5_stop_aborts (autoSend autoSend2 : List Msg → Bool)
    (env : Nat → RoundInput) (fuel n : Nat) (opts : Option ChatRequestOptions)
    (st : RoundState) (cs : List StreamChunk) (a : Nat)
    (h : (env n).thrownAbort = true ∨
      ((env n).thrownAbort = false ∧ (env n).response.ok = true ∧
        (env n).response.body = some cs ∧ (env n).abortedFrom = some a ∧
        a < cs.length)) :
    performRequest autoSend2 env (fuel + 1) n opts st =
        performRequest autoSend env (fuel + 1) n opts st ∧
    (performRequest autoSend env (fuel + 1) n opts st).requests.length = 1 ∧
    (performRequest autoSend env (fuel + 1) n opts st).finishes.map
        FinishEvent.isAbort = [true] ∧
    (performRequest autoSend env (fuel + 1) n opts st).finishes.map
        FinishEvent.isDisconnect = [false] ∧
    ((env n).thrownAbort = true ∨
        ((env n).onToolCallSet && hasHole (processDeltas (some a) 0
          ⟨"", [], st.messages ++ [assistantPlaceholder]⟩ cs).1.toolCalls) =
          false →
      (performRequest autoSend env (fuel + 1) n opts st).state.status =
          Status.ready ∧
      (performRequest autoSend env (fuel + 1) n opts st).state.error = none ∧
      (performRequest autoSend env (fuel + 1) n opts st).finishes =
        [⟨true, false, false⟩]) ∧
    ((env n).thrownAbort = false ∧
        ((env n).onToolCallSet && hasHole (processDeltas (some a) 0
          ⟨"", [], st.messages ++ [assistantPlaceholder]⟩ cs).1.toolCalls) =
          true →
      (performRequest autoSend env (fuel + 1) n opts st).state.status =
          Status.error ∧
      (performRequest autoSend env (fuel + 1) n opts st).finishes =
        [⟨true, false, true⟩]) := by
  rcases h with hthrown | ⟨hab, hok, hbody, habort, hlen⟩
  · have hstep : ∀ p : List Msg → Bool,
        performRequest p env (fuel + 1) n opts st =
        ⟨⟨st.messages, Status.ready, none⟩,
          [⟨(env n).transportHeaders, (env n).transportBody, st.messages, opts⟩],
          [⟨true, false, false⟩]⟩ := by
      intro p
      simp only [performRequest]
      rw [if_pos hthrown]
    rw [hstep autoSend, hstep autoSend2]
    refine ⟨rfl, rfl, rfl, rfl, fun _ => ⟨rfl, rfl, rfl⟩, fun hbad => ?_⟩
    obtain ⟨hbad1, _⟩ := hbad
    rw [hthrown] at hbad1
    exact absurd hbad1 (by simp)
  · have habres : (processDeltas (some a) 0
        ⟨"", [], st.messages ++ [assistantPlaceholder]⟩ cs).2 = true :=
      processDeltas_aborts a cs 0 _ (by omega) (Nat.zero_le a)
    by_cases hcond : ((env n).onToolCallSet && hasHole (processDeltas (some a)
        0 ⟨"", [], st.messages ++ [assistantPlaceholder]⟩ cs).1.toolCalls) =
        true
    · have hstep : ∀ p : List Msg → Bool,
          performRequest p env (fuel + 1) n opts st =
          ⟨⟨(processDeltas (some a) 0
              ⟨"", [], st.messages ++ [assistantPlaceholder]⟩ cs).1.messages,
            Status.error, some typeErrorMessage⟩,
            [⟨(env n).transportHeaders, (env n).transportBody, st.messages,
              opts⟩],
            [⟨true, false, true⟩]⟩ := by
        intro p
        simp only [performRequest]
        rw [if_neg (by simp [hab]), if_neg (by simp [hok])]
        simp only [hbody, habort]
        rw [if_pos hcond, habres]
      rw [hstep autoSend, hstep autoSend2]
      refine ⟨rfl, rfl, rfl, rfl, fun hgood => ?_, fun _ => ⟨rfl, rfl⟩⟩
      rcases hgood with hgood1 | hgood2
      · rw [hab] at hgood1
        exact absurd hgood1 (by simp)
      · rw [hcond] at hgood2
        exact absurd hgood2 (by simp)
    · have hstep : ∀ p : List Msg → Bool,
          performRequest p env (fuel + 1) n opts st =
          ⟨⟨(processDeltas (some a) 0
              ⟨"", [], st.messages ++ [assistantPlaceholder]⟩ cs).1.messages,
            Status.ready, none⟩,
            [⟨(env n).transportHeaders, (env n).transportBody, st.messages,
              opts⟩],
            [⟨true, false, false⟩]⟩ := by
        intro p
        simp only [performRequest]
        rw [if_neg (by simp [hab]), if_neg (by simp [hok])]
        simp only [hbody, habort]
        rw [if_neg hcond, if_pos habres, habres]
      rw [hstep autoSend, hstep autoSend2]
      refine ⟨rfl, rfl, rfl, rfl, fun _ => ⟨rfl, rfl, rfl⟩, fun hbad => ?_⟩
      exact absurd hbad.2 hcond

/-- Witness for C5 (amended): the polled abort at iteration 1 of a
two-chunk text stream, with no onToolCall handler configured. -/
theorem claim_C5_witness :
    ((c5env 0).thrownAbort = false ∧ (c5env 0).response.ok = true ∧
      (c5env 0).response.body = some [textChunk "He", textChunk "llo"] ∧
      (c5env 0).abortedFrom = some 1 ∧
      1 < ([textChunk "He", textChunk "llo"] : List StreamChunk).length) ∧
    ((performRequest (fun _ => true) c5env 3 0 none c4state).state.status =
        Status.ready ∧
      (performRequest (fun _ => true) c5env 3 0 none c4state).state.error =
        none ∧
      (performRequest (fun _ => true) c5env 3 0 none c4state).finishes =
        [⟨true, false, false⟩]) ∧
    (performRequest (fun _ => true) c5env 3 0 none c4state).requests.length
      = 1 ∧
    performRequest (fun _ => false) c5env 3 0 none c4state =
      performRequest (fun _ => true) c5env 3 0 none c4state := by
  have H := claim_C5_stop_aborts (fun _ => true) (fun _ => false) c5env 2 0
    none c4state [textChunk "He", textChunk "llo"] 1
    (Or.inr ⟨rfl, rfl, rfl, rfl, by decide⟩)
  exact ⟨⟨rfl, rfl, rfl, rfl, by decide⟩,
    H.2.2.2.2.1 (Or.inr rfl), H.2.1, H.1⟩

/-- Every request a `performRequest` call issues — the initial round and
every auto-continued round — carries the per-request options the call was
entered with. -/
theorem performRequest_options (autoSend : List Msg → Bool)
    (env : Nat → RoundInput) (opts : Option ChatRequestOptions) :
    ∀ (fuel n : Nat) (st : RoundState),
    ∀ req ∈ (performRequest autoSend env fuel n opts st).requests,
    req.options = opts := by
  intro fuel
  induction fuel with
  | zero =>
    intro n st req h
    simp only [performRequest, List.not_mem_nil] at h
  | succ f ih =>
    intro n st req h
    simp only [performRequest] at h
    split at h
    · rcases List.mem_singleton.mp h with rfl
      rfl
    · split at h
      · rcases List.mem_singleton.mp h with rfl
        rfl
      · split at h
        · rcases List.mem_singleton.mp h with rfl
          rfl
        · split at h
          · rcases List.mem_singleton.mp h with rfl
            rfl
          · split at h
            · rcases List.mem_singleton.mp h with rfl
              rfl
            · split at h
              · rcases List.mem_cons.mp h with rfl | h2
                · rfl
                · exact ih (n + 1) _ req h2
              · rcases List.mem_singleton.mp h with rfl
                rfl

/-- C10: an auto-continuation round triggered at the end of a sendMessage
round reuses that call's per-request options (every request of the whole
call, auto-continued rounds included, carries them), whereas the
auto-continuation round triggered by addToolResult is issued with no
per-request options at all. -/
theorem claim_C10_options_reuse (autoSend : List Msg → Bool)
    (env : Nat → RoundInput) (fuel : Nat) (input : Msg ⊕ String)
    (opts : Option ChatRequestOptions) (st : RoundState)
    (toolCallId result : String) (st2 : RoundState) :
    (∀ req ∈ (sendMessage autoSend env fuel input opts st).requests,
      req.options = opts) ∧
    (∀ req ∈ (addToolResult autoSend env fuel toolCallId result st2).requests,
      req.options = none) := by
  constructor
  · intro req h
    simp only [sendMessage] at h
    exact performRequest_options autoSend env opts fuel 0 _ req h
  · intro req h
    simp only [addToolResult] at h
    split at h
    · exact performRequest_options autoSend env none fuel 0 _ req h
    · simp only [List.not_mem_nil] at h

/-- Witness for C10: the one request of a concrete sendMessage call carries
the call's options. -/
theorem claim_C10_witness :
    (RequestRecord.mk [] []
        [Msg.mk "user" (some "hi") none none] (some c10opts) ∈
      (sendMessage (fun _ => false) c10env 1 (Sum.inr "hi") (some c10opts)
        ⟨[], Status.ready, none⟩).requests) ∧
    (RequestRecord.mk [] []
        [Msg.mk "user" (some "hi") none none] (some c10opts)).options =
      some c10opts := by
  have hmem : RequestRecord.mk [] []
      [Msg.mk "user" (some "hi") none none] (some c10opts) ∈
      (sendMessage (fun _ => false) c10env 1 (Sum.inr "hi") (some c10opts)
        ⟨[], Status.ready, none⟩).requests := by
    rw [show (sendMessage (fun _ => false) c10env 1 (Sum.inr "hi")
        (some c10opts) ⟨[], Status.ready, none⟩).requests =
      [RequestRecord.mk [] []
        [Msg.mk "user" (some "hi") none none] (some c10opts)] from rfl]
    exact List.mem_singleton.mpr rfl
  exact ⟨hmem,
    (claim_C10_options_reuse (fun _ => false) c10env 1 (Sum.inr "hi")
      (some c10opts) ⟨[], Status.ready, none⟩ "t" "r"
      ⟨[], Status.ready, none⟩).1 _ hmem⟩

/-- A `performRequest` entered with fuel always issues its round's request
first: the head of the request trace carries the current message log and
the call's options, whatever the response or abort behaviour. -/
theorem performRequest_requests_head (autoSend : List Msg → Bool)
    (env : Nat → RoundInput) (fuel n : Nat) (opts : Option ChatRequestOptions)
    (st : RoundState) :
    (performRequest autoSend env (fuel + 1) n opts st).requests.head? =
      some ⟨(env n).transportHeaders, (env n).transportBody,
        st.messages, opts⟩ := by
  simp only [performRequest]
  split
  · rfl
  · split
    · rfl
    · split
      · rfl
      · split
        · rfl
        · split
          · rfl
          · split
            · rfl
            · rfl

/-- C8 counterexample: at a concrete malformed input (a message with empty
role and no content), `sendMessage` does not reject before mutating state —
it appends the message, issues the request, and runs the round, so the
claim that the round never starts and the store is unchanged is false. -/
theorem claim_C8_counterexample :
    ¬ ((sendMessage (fun _ => false) c10env 1
          (Sum.inl (Msg.mk "" none none none)) none
          ⟨[], Status.ready, none⟩).requests = [] ∧
        (sendMessage (fun _ => false) c10env 1
          (Sum.inl (Msg.mk "" none none none)) none
          ⟨[], Status.ready, none⟩).state =
          (⟨[], Status.ready, none⟩ : RoundState)) := by
  intro h
  have h1 := h.1
  rw [show (sendMessage (fun _ => false) c10env 1
      (Sum.inl (Msg.mk "" none none none)) none
      ⟨[], Status.ready, none⟩).requests =
    [RequestRecord.mk [] [] [Msg.mk "" none none none] none] from rfl] at h1
  exact List.cons_ne_nil _ _ h1

/-- C8 (amended): the send entry points perform no runtime validation —
every caller input, malformed or not, is normalized, appended to the log,
and the round is issued; the request body's message list ends with the
appended message.  (Missing/non-array `messages` validation exists only
server-side, outside this client.) -/
theorem claim_C8_no_validation (autoSend : List Msg → Bool)
    (env : Nat → RoundInput) (fuel : Nat) (input : Msg ⊕ String)
    (opts : Option ChatRequestOptions) (st : RoundState) :
    (sendMessage autoSend env (fuel + 1) input opts st).requests.head? =
      some ⟨(env 0).transportHeaders, (env 0).transportBody,
        st.messages ++ [normalizeInput input], opts⟩ := by
  simp only [sendMessage]
  cases input with
  | inl m =>
    exact performRequest_requests_head autoSend env fuel 0 opts
      { st with messages := st.messages ++ [normalizeInput (Sum.inl m)] }
  | inr text =>
    exact performRequest_requests_head autoSend env fuel 0 opts
      { st with messages := st.messages ++ [normalizeInput (Sum.inr text)] }

/-! ## Lemmas: conversation store heap -/

/-- Every store mutation allocates exactly one fresh array at the end of
the heap. -/
theorem applyOp_heap (s : DedalusChatState) (op : StoreOp) :
    ∃ a, (applyOp s op).heap = s.heap ++ [a] := by
  cases op with
  | push m => exact ⟨_, rfl⟩
  | pop => exact ⟨_, rfl⟩
  | replaceLast m =>
    unfold applyOp
    cases curMsgs s
    · exact ⟨_, rfl⟩
    · exact ⟨_, rfl⟩
  | setMsgs ms => exact ⟨_, rfl⟩

/-- Every store mutation repoints the private field to the fresh array. -/
theorem applyOp_current (s : DedalusChatState) (op : StoreOp) :
    (applyOp s op).current = s.heap.length := by
  cases op with
  | push m => rfl
  | pop => rfl
  | replaceLast m =>
    unfold applyOp
    cases curMsgs s
    · rfl
    · rfl
  | setMsgs ms => rfl

/-- Old heap entries survive any sequence of store mutations unchanged, and
the heap only grows. -/
theorem heap_foldl_stable (ops : List StoreOp) :
    ∀ (s : DedalusChatState) (h : Nat), h < s.heap.length →
    (List.foldl applyOp s ops).heap.get? h = s.heap.get? h ∧
    s.heap.length ≤ (List.foldl applyOp s ops).heap.length := by
  induction ops with
  | nil =>
    intro s h hlt
    exact ⟨rfl, Nat.le_refl _⟩
  | cons op rest ih =>
    intro s h hlt
    obtain ⟨a, ha⟩ := applyOp_heap s op
    have hlen : (applyOp s op).heap.length = s.heap.length + 1 := by
      rw [ha]
      simp
    have hlt2 : h < (applyOp s op).heap.length := by omega
    obtain ⟨h1, h2⟩ := ih (applyOp s op) h hlt2
    rw [List.foldl_cons]
    refine ⟨?_, by omega⟩
    rw [h1, ha]
    simp only [List.get?_eq_getElem?]
    exact List.getElem?_append_left hlt

/-- C9: every store mutation installs a freshly constructed array — it
appends a new allocation to the heap and repoints the current handle — and
never mutates an array previously returned by a snapshot accessor: the
contents of every previously allocated handle survive any sequence of
subsequent mutations unchanged. -/
theorem claim_C9_store_immutability (ops : List StoreOp)
    (s : DedalusChatState) (h : Nat) (hlt : h < s.heap.length) :
    (List.foldl applyOp s ops).heap.get? h = s.heap.get? h ∧
    (∀ (s2 : DedalusChatState) (op : StoreOp),
      (applyOp s2 op).current = s2.heap.length ∧
      (applyOp s2 op).heap.length = s2.heap.length + 1) := by
  refine ⟨(heap_foldl_stable ops s h hlt).1, fun s2 op => ⟨applyOp_current s2 op, ?_⟩⟩
  obtain ⟨a, ha⟩ := applyOp_heap s2 op
  rw [ha]
  simp

/-- Witness for C9: a concrete store with one prior snapshot handle,
mutated by a push then a pop. -/
theorem claim_C9_witness :
    0 < (DedalusChatState.mk [[Msg.mk "user" (some "hi") none none]] 0).heap.length ∧
    ((List.foldl applyOp (DedalusChatState.mk
        [[Msg.mk "user" (some "hi") none none]] 0)
        [StoreOp.push (Msg.mk "assistant" (some "yo") none none),
          StoreOp.pop]).heap.get? 0 =
      (DedalusChatState.mk [[Msg.mk "user" (some "hi") none none]] 0).heap.get? 0 ∧
    (∀ (s2 : DedalusChatState) (op : StoreOp),
      (applyOp s2 op).current = s2.heap.length ∧
      (applyOp s2 op).heap.length = s2.heap.length + 1)) :=
  ⟨by decide,
    claim_C9_store_immutability
      [StoreOp.push (Msg.mk "assistant" (some "yo") none none), StoreOp.pop]
      (DedalusChatState.mk [[Msg.mk "user" (some "hi") none none]] 0) 0
      (by decide)⟩

end DedalusReact
